import Mathlib

/-!
Verification of the opencligen core against its specification.

The Go sources are shallowly embedded: strings are modelled as `List Char`
(`Str`); Go byte-oriented operations coincide with this model on ASCII data.
The character-class helpers model the `unicode` package on a documented
domain: ASCII exactly, plus the Mathematical Bold Capitals U+1D400-U+1D419
(an `Lu` range with no lowercase mappings) for `goIsUpper`/`goToLower`;
theorems that depend on case folding either hold for that whole domain or
carry an explicit ASCII hypothesis.
Go maps with string keys are modelled as association lists with unique keys
(`mapSet` / `lookupA`); where Go loops rewrite a value until a fixpoint we
use an explicit fuel argument bounded by the input length so that every
definition evaluates by kernel reduction.
-/

/-- Strings of the Go program, modelled as lists of characters. -/
abbrev Str := List Char

/-- First-match lookup in an association list (Go `m[k]` with `ok`). -/
def lookupA : List (Str × Str) → Str → Option Str
  | [], _ => none
  | (k, v) :: rest, key => if k = key then some v else lookupA rest key

/-- Go map assignment `m[k] = v`: replace the binding if present, else append. -/
def mapSet : List (Str × Str) → Str → Str → List (Str × Str)
  | [], k, v => [(k, v)]
  | (k', v') :: rest, k, v =>
    if k' = k then (k, v) :: rest else (k', v') :: mapSet rest k v

/-- Embeds Go `strings.HasPrefix`. -/
def hasPre : Str → Str → Bool
  | [], _ => true
  | _ :: _, [] => false
  | p :: ps, c :: cs => p = c && hasPre ps cs

/-- Embeds Go `strings.Contains`: does `pat` occur as a contiguous substring? -/
def containsB (s pat : Str) : Bool :=
  hasPre pat s || (match s with
    | [] => false
    | _ :: rest => containsB rest pat)

/-- Embeds Go `strings.HasSuffix` for a single-character suffix test. -/
def lastIs (s : Str) (c : Char) : Bool :=
  match s.getLast? with
  | some c' => c' = c
  | none => false

/-- Embeds Go `strings.Join` (used via `strings.Join(missing, ", ")`). -/
def joinSep (sep : Str) : List Str → Str
  | [] => []
  | [x] => x
  | x :: xs => x ++ sep ++ joinSep sep xs

/-- ASCII uppercase, code points 65..90 (the regexp class `[A-Z]` and
textproto's byte-level case logic are exactly this). -/
def isAsciiUpper (c : Char) : Bool := 65 ≤ c.toNat && c.toNat ≤ 90

/-- Go `unicode.IsUpper` on the modelled character domain: the ASCII range
plus the Mathematical Bold Capitals U+1D400-U+1D419, an `Lu` range of Go's
unicode tables none of whose letters has a lowercase mapping. Uppercase
letters outside this domain are not modelled. -/
def goIsUpper (c : Char) : Bool :=
  isAsciiUpper c || (119808 ≤ c.toNat && c.toNat ≤ 119833)

/-- Go `unicode.ToLower` on the modelled domain: ASCII uppercase moves down
by 32; U+1D400-U+1D419 have no lowercase mapping, so `ToLower` is the
identity there, as on the rest of the domain. -/
def goToLower (c : Char) : Char :=
  if isAsciiUpper c then Char.ofNat (c.toNat + 32) else c

/-- ASCII/Latin-1 restriction of Go `unicode.IsSpace`. -/
def goIsSpace (c : Char) : Bool :=
  c = ' ' || c = '\t' || c = '\n' || c = '\x0b' || c = '\x0c' || c = '\r'

/-- Embeds Go `strings.TrimSpace` (leading side). -/
def dropSpaceL (s : Str) : Str := s.dropWhile goIsSpace

/-- Embeds Go `strings.TrimSpace`: trim whitespace from both ends. -/
def trimSpace (s : Str) : Str :=
  ((s.dropWhile goIsSpace).reverse.dropWhile goIsSpace).reverse

/-- Trim every `'-'` from both ends: Go `strings.Trim(res, "-")`. -/
def trimHyphens (s : Str) : Str :=
  ((s.dropWhile (fun c => c = '-')).reverse.dropWhile (fun c => c = '-')).reverse

/-- The per-rune body of `toKebabCase`'s loop. `prev` is the character
preceding the current one in the input (`rune(s[i-1])` in the source;
whenever the preceding character is ASCII - as in every theorem below -
the previous byte is the previous character). -/
def kebabCore : Option Char → Str → Str
  | _, [] => []
  | prev, c :: rest =>
    (if goIsUpper c then
      (match prev with
       | none => [goToLower c]
       | some p =>
         if !goIsUpper p && p ≠ '-' && p ≠ '_' then ['-', goToLower c]
         else [goToLower c])
     else if c = '_' || c = ' ' then ['-']
     else [c]) ++ kebabCore (some c) rest

/-- One pass of Go `strings.ReplaceAll(res, "--", "-")`: non-overlapping,
left-to-right. -/
def replaceDD : Str → Str
  | '-' :: '-' :: rest => '-' :: replaceDD rest
  | c :: rest => c :: replaceDD rest
  | [] => []

/-- The `for strings.Contains(res, "--") ... ReplaceAll` loop of
`toKebabCase`, with fuel: each iteration strictly shrinks the string, so
`s.length` iterations always reach the fixpoint. -/
def collapseFuel : Nat → Str → Str
  | 0, s => s
  | n + 1, s =>
    if containsB s ['-', '-'] then collapseFuel n (replaceDD s) else s

/-- The double-hyphen collapsing loop of `toKebabCase`. -/
def collapseHyphens (s : Str) : Str := collapseFuel s.length s

/-- Embeds `toKebabCase` of names.go. -/
def toKebabCase (s : Str) : Str :=
  if s = [] then s
  else trimHyphens (collapseHyphens (kebabCore none s))

/-- Embeds `DeriveGroupName` of names.go. -/
def DeriveGroupName (tag : Str) : Str :=
  if tag = [] then "default".data else toKebabCase tag

/-- The verb table of `DeriveCommandName` (`^list[A-Z]` etc.; the `replace`
column always equals the matched verb). -/
def verbPrefixes : List Str :=
  ["list".data, "get".data, "create".data, "update".data, "delete".data,
   "start".data, "stop".data, "cancel".data, "ping".data, "subscribe".data]

/-- Matching of the Go regexp `^verb[A-Z]` (the class `[A-Z]` is ASCII). -/
def verbMatches (verb operationID : Str) : Bool :=
  hasPre verb operationID &&
    (match (operationID.drop verb.length).head? with
     | some c => isAsciiUpper c
     | none => false)

/-- First-match search of the verb table. -/
def findVerb : List Str → Str → Option Str
  | [], _ => none
  | v :: vs, operationID =>
    if verbMatches v operationID then some v else findVerb vs operationID

/-- Embeds `DeriveCommandName` of names.go. -/
def DeriveCommandName (operationID : Str) : Str :=
  match findVerb verbPrefixes operationID with
  | some v => v
  | none => toKebabCase operationID

/-- ASCII restriction of Go `unicode.ToUpper` on one character. -/
def goToUpperChar (c : Char) : Char :=
  if 97 ≤ c.toNat && c.toNat ≤ 122 then Char.ofNat (c.toNat - 32) else c

/-- ASCII restriction of Go `strings.ToUpper`. -/
def goToUpper (s : Str) : Str := s.map goToUpperChar

/-- Embeds `DeriveFlagName` of names.go: header parameters whose name starts
with `X-` (case-insensitively) lose that two-character prefix. -/
def DeriveFlagName (paramName inLoc : Str) : Str :=
  let name :=
    if inLoc = "header".data && hasPre "X-".data (goToUpper paramName)
    then paramName.drop 2 else paramName
  toKebabCase name

/-- Accumulator loop for Go `strings.Fields` (split on whitespace runs). -/
def goFieldsAux : Str → Str → List Str
  | cur, [] => if cur = [] then [] else [cur.reverse]
  | cur, c :: rest =>
    if goIsSpace c then
      (if cur = [] then goFieldsAux [] rest
       else cur.reverse :: goFieldsAux [] rest)
    else goFieldsAux (c :: cur) rest

/-- Embeds Go `strings.Fields`. -/
def goFields (s : Str) : List Str := goFieldsAux [] s

/-- Embeds `ParseCommandPath` of names.go. -/
def ParseCommandPath (name : Str) : List Str :=
  (goFields name).map toKebabCase

example : toKebabCase "UserID".data = "user-id".data := by decide
example : toKebabCase "some_customOp".data = "some-custom-op".data := by decide
example : DeriveCommandName "cancelTask".data = "cancel".data := by decide
example : DeriveCommandName "someCustomOperation".data
    = "some-custom-operation".data := by decide
example : DeriveFlagName "X-Request-ID".data "header".data
    = "request-id".data := by decide
example : ParseCommandPath "tasks  subTasks".data
    = ["tasks".data, "sub-tasks".data] := by decide

/-! ## Plan data model (spec/model.go and plan model.go) -/

/-- Parameter-level `x-cli` overrides (`ParamCliOverrides`). The tri-state
`Positional *bool` is `Option Bool`. -/
structure ParamCliOverrides where
  Flag : Str
  Shorthand : Str
  Env : Str
  ConfigKey : Str
  Positional : Option Bool
deriving DecidableEq

/-- Operation-level `x-cli` overrides (`CliOverrides`). -/
structure CliOverrides where
  Name : Str
  Group : Str
  Aliases : List Str
  Hidden : Bool
deriving DecidableEq

/-- `spec.Param`. `Default` carries an opaque JSON scalar (Go
`interface{}`) and `Min`/`Max` opaque numerics (Go `*float64`); the plan
builder only copies them. -/
structure Param where
  Name : Str
  In : Str
  Required : Bool
  Type' : Str
  Format : Str
  Default : Option Str
  Min : Option Rat
  Max : Option Rat
  Description : Str
  Cli : Option ParamCliOverrides
deriving DecidableEq

/-- `spec.RequestBody`. -/
structure RequestBody where
  Required : Bool
  ContentTypes : List Str
  Description : Str
deriving DecidableEq

/-- `spec.Response`. -/
structure SpecResponse where
  StatusCode : Str
  Description : Str
  ContentTypes : List Str
deriving DecidableEq

/-- `spec.Operation`. -/
structure Operation where
  Tag : Str
  Method : Str
  Path : Str
  OperationID : Str
  Summary : Str
  Description : Str
  Params : List Param
  RequestBody : Option RequestBody
  Responses : List SpecResponse
  Cli : Option CliOverrides
deriving DecidableEq

/-- `spec.Spec` (the fields the plan builder reads). -/
structure Spec where
  Title : Str
  Version : Str
  Description : Str
  Operations : List Operation
deriving DecidableEq

/-- `plan.ParamPlan`. -/
structure ParamPlan where
  Name : Str
  FlagName : Str
  Shorthand : Str
  Type' : Str
  Format : Str
  Required : Bool
  Default : Option Str
  Min : Option Rat
  Max : Option Rat
  Description : Str
  EnvVar : Str
  ConfigKey : Str
  In : Str
deriving DecidableEq

/-- `plan.OpPlan`. -/
structure OpPlan where
  CommandPath : List Str
  Method : Str
  Path : Str
  OperationID : Str
  Summary : Str
  Description : Str
  Positionals : List ParamPlan
  Flags : List ParamPlan
  HasJSONBody : Bool
  IsEventStream : Bool
  Hidden : Bool
  Aliases : List Str
deriving DecidableEq

/-- `plan.GroupPlan`. -/
structure GroupPlan where
  Name : Str
  Description : Str
  Operations : List OpPlan
deriving DecidableEq

/-- `plan.Plan`. -/
structure Plan where
  AppName : Str
  ModuleName : Str
  Groups : List GroupPlan
deriving DecidableEq

/-- `Operation.HasJSONBody` of load.go. -/
def opHasJSONBody (op : Operation) : Bool :=
  match op.RequestBody with
  | none => false
  | some rb => rb.ContentTypes.any (fun ct => containsB ct "application/json".data)

/-- `Operation.HasEventStream` of load.go. -/
def opHasEventStream (op : Operation) : Bool :=
  op.Responses.any (fun resp =>
    resp.ContentTypes.any (fun ct => containsB ct "text/event-stream".data))

/-! ## Plan builder (build.go) -/

/-- `buildParamPlan` of build.go. -/
def buildParamPlan (p : Param) : ParamPlan :=
  let flagName :=
    match p.Cli with
    | some c => if c.Flag ≠ [] then c.Flag else DeriveFlagName p.Name p.In
    | none => DeriveFlagName p.Name p.In
  { Name := p.Name
    FlagName := flagName
    Shorthand := match p.Cli with | some c => c.Shorthand | none => []
    Type' := p.Type'
    Format := p.Format
    Required := p.Required
    Default := p.Default
    Min := p.Min
    Max := p.Max
    Description := p.Description
    EnvVar := match p.Cli with | some c => c.Env | none => []
    ConfigKey := match p.Cli with | some c => c.ConfigKey | none => []
    In := p.In }

/-- The `isPositional` test of `buildOpPlan`: defaults to true, an explicit
`x-cli` tri-state overrides it. -/
def paramIsPositional (p : Param) : Bool :=
  match p.Cli with
  | some c => (match c.Positional with | some b => b | none => true)
  | none => true

/-- The path-parameter loop of `buildOpPlan`: returns the positionals and
the forced-to-flag plans, each in input order. -/
def posLoop : List Param → List ParamPlan × List ParamPlan
  | [] => ([], [])
  | p :: rest =>
    let (ps, fs) := posLoop rest
    if paramIsPositional p then (buildParamPlan p :: ps, fs)
    else (ps, buildParamPlan p :: fs)

/-- `buildOpPlan` of build.go. -/
def buildOpPlan (groupName : Str) (op : Operation) : OpPlan :=
  let commandPath :=
    match op.Cli with
    | some c =>
      if c.Name ≠ [] then ParseCommandPath c.Name
      else [DeriveGroupName groupName, DeriveCommandName op.OperationID]
    | none => [DeriveGroupName groupName, DeriveCommandName op.OperationID]
  let hidden := match op.Cli with | some c => c.Hidden | none => false
  let aliases := match op.Cli with | some c => c.Aliases | none => []
  let commandPath :=
    match op.Cli with
    | some c =>
      if c.Group ≠ [] then commandPath.set 0 (DeriveGroupName c.Group)
      else commandPath
    | none => commandPath
  let pathParams := op.Params.filter (fun p => p.In = "path".data)
  let otherParams := op.Params.filter (fun p => ¬(p.In = "path".data))
  let pf := posLoop pathParams
  { CommandPath := commandPath
    Method := op.Method
    Path := op.Path
    OperationID := op.OperationID
    Summary := op.Summary
    Description := op.Description
    Positionals := pf.1
    Flags := pf.2 ++ otherParams.map buildParamPlan
    HasJSONBody := opHasJSONBody op
    IsEventStream := opHasEventStream op
    Hidden := hidden
    Aliases := aliases }

/-- `buildGroupPlan` of build.go. -/
def buildGroupPlan (name : Str) (ops : List Operation) : GroupPlan :=
  { Name := DeriveGroupName name
    Description := []
    Operations := ops.map (buildOpPlan name) }

/-- The normalized grouping tag of an operation (missing tag becomes
`default`). -/
def normTag (op : Operation) : Str :=
  if op.Tag = [] then "default".data else op.Tag

/-- Byte-lexicographic string comparison of Go `sort.Strings` (UTF-8 byte
order coincides with code-point order). -/
def strLeB : Str → Str → Bool
  | [], _ => true
  | _ :: _, [] => false
  | a :: as, b :: bs => if a = b then strLeB as bs else a.toNat ≤ b.toNat

/-- Insertion step of the sorting used to model `sort.Strings`. -/
def insertStr (x : Str) : List Str → List Str
  | [] => [x]
  | y :: ys => if strLeB x y then x :: y :: ys else y :: insertStr x ys

/-- Sorting used to model `sort.Strings` over the map's key set. -/
def sortStrs (l : List Str) : List Str := l.foldr insertStr []

/-- First-occurrence deduplication: the key set of the Go `groups` map. -/
def dedupKeys : List Str → List Str
  | [] => []
  | k :: rest => if k ∈ rest then dedupKeys rest else k :: dedupKeys rest

/-- The sorted group keys of `Build` (`sort.Strings(groupNames)`); the sort
makes the map's nondeterministic iteration order irrelevant. -/
def planKeys (s : Spec) : List Str :=
  sortStrs (dedupKeys (s.Operations.map normTag))

/-- `Build` of build.go: group by (normalized) tag, sort the keys, build
each group over the operations carrying that tag in input order. -/
def planBuild (s : Spec) (appName moduleName : Str) : Plan :=
  { AppName := appName
    ModuleName := moduleName
    Groups := (planKeys s).map (fun k =>
      buildGroupPlan k (s.Operations.filter (fun op => normTag op = k))) }

/-! ## Request builder (gen/runtime/request.go) -/

/-- `Request` of request.go; the three maps are association lists with
unique keys, `Body` is `nil` or bytes. -/
structure Request where
  Method : Str
  Path : Str
  PathParams : List (Str × Str)
  QueryParams : List (Str × Str)
  Headers : List (Str × Str)
  Body : Option Str
deriving DecidableEq

/-- `NewRequest` of request.go. -/
def NewRequest (method path : Str) : Request :=
  { Method := method, Path := path, PathParams := [], QueryParams := [],
    Headers := [], Body := none }

/-- `SetPathParam` of request.go. -/
def SetPathParam (r : Request) (name value : Str) : Request :=
  { r with PathParams := mapSet r.PathParams name value }

/-- `SetQueryParam` of request.go. -/
def SetQueryParam (r : Request) (name value : Str) : Request :=
  { r with QueryParams := mapSet r.QueryParams name value }

/-- `SetHeader` of request.go. -/
def SetHeader (r : Request) (name value : Str) : Request :=
  { r with Headers := mapSet r.Headers name value }

/-- `SetBody` of request.go. -/
def SetBody (r : Request) (body : Str) : Request :=
  { r with Body := some body }

/-- Fueled scan for `pathParamRegex.FindAllStringSubmatch`: the regexp
`\x7b([^\x7d]+)\x7d` matched leftmost, non-overlapping; each submatch is
the placeholder name between the braces. Fuel bounds the recursion by the
input length. -/
def findPHAux : Nat → Str → List Str
  | 0, _ => []
  | _ + 1, [] => []
  | n + 1, c :: rest =>
    if c = '\x7b' then
      match List.span (fun x => decide (x ≠ '\x7d')) rest with
      | (_, []) => []
      | (name, _ :: rest') =>
        if name = [] then findPHAux n rest' else name :: findPHAux n rest'
    else findPHAux n rest

/-- All `\x7bname\x7d` placeholder names of a path template, in occurrence
order (with duplicates), as found by `pathParamRegex` in request.go. -/
def findPlaceholders (s : Str) : List Str := findPHAux (s.length + 1) s

/-- Uppercase hexadecimal digit, for percent-encoding. -/
def hexUpper (n : Nat) : Char :=
  if n < 10 then Char.ofNat (48 + n) else Char.ofNat (55 + n)

/-- UTF-8 bytes of one character (values, not chars). -/
def utf8Bytes (c : Char) : List Nat :=
  let n := c.toNat
  if n < 128 then [n]
  else if n < 2048 then [192 + n / 64, 128 + n % 64]
  else if n < 65536 then [224 + n / 4096, 128 + (n / 64) % 64, 128 + n % 64]
  else [240 + n / 262144, 128 + (n / 4096) % 64, 128 + (n / 64) % 64,
        128 + n % 64]

/-- `%XX` percent-encoding of one byte (uppercase hex, as net/url). -/
def pctEnc (b : Nat) : Str := ['%', hexUpper (b / 16), hexUpper (b % 16)]

/-- Is the character ASCII alphanumeric? -/
def isAlnum (c : Char) : Bool :=
  ('a' ≤ c && c ≤ 'z') || ('A' ≤ c && c ≤ 'Z') || ('0' ≤ c && c ≤ '9')

/-- net/url `shouldEscape(c, encodePathSegment)`: alphanumerics, `-._~`
and the specials `$&+:=@` stay; `/;,?` and everything else is escaped
(non-ASCII always is). -/
def shouldEscapePathSeg (c : Char) : Bool :=
  if isAlnum c then false
  else if c = '-' || c = '_' || c = '.' || c = '~' then false
  else if c = '$' || c = '&' || c = '+' || c = ':' || c = '=' || c = '@' then
    false
  else true

/-- net/url `url.PathEscape` on one character (a non-kept character is
percent-encoded byte by byte). -/
def goPathEscapeChar (c : Char) : Str :=
  if shouldEscapePathSeg c then (utf8Bytes c).flatMap pctEnc else [c]

/-- Embeds net/url `url.PathEscape`. -/
def goPathEscape (s : Str) : Str := s.flatMap goPathEscapeChar

/-- net/url `url.QueryEscape` on one character: only alphanumerics and
`-._~` stay, space becomes `+`. -/
def goQueryEscapeChar (c : Char) : Str :=
  if isAlnum c || c = '-' || c = '_' || c = '.' || c = '~' then [c]
  else if c = ' ' then ['+']
  else (utf8Bytes c).flatMap pctEnc

/-- Embeds net/url `url.QueryEscape`. -/
def goQueryEscape (s : Str) : Str := s.flatMap goQueryEscapeChar

/-- Fueled Go `strings.ReplaceAll` for a non-empty pattern: leftmost,
non-overlapping. Fuel bounds the recursion by the input length. -/
def replaceAllFuel : Nat → Str → Str → Str → Str
  | 0, s, _, _ => s
  | n + 1, s, old, new =>
    if old ≠ [] && hasPre old s then
      new ++ replaceAllFuel n (s.drop old.length) old new
    else
      match s with
      | [] => []
      | c :: rest => c :: replaceAllFuel n rest old new

/-- Embeds Go `strings.ReplaceAll` (callers always pass a non-empty
pattern `\x7bname\x7d`). -/
def replaceAllSub (s old new : Str) : Str :=
  replaceAllFuel (s.length + 1) s old new

/-- Go `strings.TrimSuffix(baseURL, "/")`: strip exactly one trailing
slash when present. -/
def trimSuffixSlash (s : Str) : Str :=
  if lastIs s '/' then s.dropLast else s

/-- `url.Values.Encode` for the single-valued query map: keys sorted
byte-lexicographically, each pair query-escaped and joined by `&`. -/
def encodeQuery (qp : List (Str × Str)) : Str :=
  joinSep ['&'] ((sortStrs (qp.map Prod.fst)).map (fun k =>
    goQueryEscape k ++ '=' ::
      goQueryEscape (match lookupA qp k with | some v => v | none => [])))

/-- textproto `validHeaderFieldByte`: the HTTP token character class. -/
def isTokenChar (c : Char) : Bool :=
  isAlnum c || c = '!' || c = '#' || c = '$' || c = '%' || c = '&' ||
  c = '\'' || c = '*' || c = '+' || c = '-' || c = '.' || c = '^' ||
  c = '_' || c.toNat = 96 || c = '|' || c = '~'

/-- The canonicalizing loop of textproto `CanonicalMIMEHeaderKey`:
uppercase after start or hyphen, lowercase otherwise. -/
def canonKeyAux : Bool → Str → Str
  | _, [] => []
  | upper, c :: rest =>
    let c' := if upper then goToUpperChar c
              else if isAsciiUpper c then goToLower c else c
    c' :: canonKeyAux (c = '-') rest

/-- Embeds textproto `CanonicalMIMEHeaderKey` (as used by
`http.Header.Set`): a key with a non-token character is left unchanged. -/
def canonicalMIMEHeaderKey (s : Str) : Str :=
  if s.all isTokenChar then canonKeyAux true s else s

/-- `http.Header.Set`: store the single value under the canonical key. -/
def headerSet (h : List (Str × Str)) (k v : Str) : List (Str × Str) :=
  mapSet h (canonicalMIMEHeaderKey k) v

/-- The transport-ready request produced by `Build` (the fields of
`http.Request` the code sets; `context` and net/http's method/URL
validation are external transport concerns and are not modelled, so
request creation itself cannot fail here). -/
structure HttpRequest where
  Method : Str
  URL : Str
  Header : List (Str × Str)
  Body : Option Str
deriving DecidableEq

instance {e a : Type} [DecidableEq e] [DecidableEq a] :
    DecidableEq (Except e a) := fun x y =>
  match x, y with
  | .error u, .error v =>
    if h : u = v then isTrue (by rw [h])
    else isFalse (by intro hh; cases hh; exact h rfl)
  | .ok u, .ok v =>
    if h : u = v then isTrue (by rw [h])
    else isFalse (by intro hh; cases hh; exact h rfl)
  | .error _, .ok _ => isFalse (by intro hh; cases hh)
  | .ok _, .error _ => isFalse (by intro hh; cases hh)

/-- Embeds `Build` of request.go (named `requestBuild` to avoid clashing
with the plan builder's `Build`). -/
def requestBuild (r : Request) (baseURL : Str) : Except Str HttpRequest :=
  let phMatches := findPlaceholders r.Path
  let missing := phMatches.filter (fun n => (lookupA r.PathParams n).isNone)
  if missing ≠ [] then
    .error ("missing required path parameter(s): ".data ++
      joinSep ", ".data missing)
  else
    let path := r.PathParams.foldl
      (fun p kv => replaceAllSub p ('\x7b' :: kv.1 ++ ['\x7d'])
        (goPathEscape kv.2)) r.Path
    let fullURL := trimSuffixSlash baseURL ++ path
    let fullURL :=
      if r.QueryParams ≠ [] then fullURL ++ '?' :: encodeQuery r.QueryParams
      else fullURL
    let hdr := r.Headers.foldl (fun h kv => headerSet h kv.1 kv.2) []
    let hdr :=
      match r.Body with
      | some _ => headerSet hdr "Content-Type".data "application/json".data
      | none => hdr
    .ok { Method := r.Method, URL := fullURL, Header := hdr, Body := r.Body }

example : findPlaceholders "/users/\x7bid\x7d/posts/\x7bpostId\x7d".data
    = ["id".data, "postId".data] := by decide
example :
    requestBuild
      (SetPathParam (NewRequest "GET".data "/users/\x7bid\x7d".data)
        "id".data "a b".data)
      "https://api.example.com/".data
    = .ok { Method := "GET".data, URL := "https://api.example.com/users/a%20b".data,
            Header := [], Body := none } := by decide
example :
    requestBuild
      (SetPathParam (NewRequest "GET".data
        "/users/\x7bid\x7d/posts/\x7bpostId\x7d".data) "id".data "42".data)
      "https://x".data
    = .error "missing required path parameter(s): postId".data := by decide

/-! ## JSON validity (encoding/json `Unmarshal` into `interface\x7b\x7d`,
as used by `isJSON`): a recursive-descent acceptor for the JSON value
grammar, with whitespace handling as in encoding/json. -/

/-- encoding/json whitespace. -/
def jsonWS (c : Char) : Bool := c = ' ' || c = '\t' || c = '\n' || c = '\r'

/-- Skip leading JSON whitespace. -/
def skipWS (s : Str) : Str := s.dropWhile jsonWS

/-- ASCII decimal digit. -/
def isJsonDigit (c : Char) : Bool := '0' ≤ c && c ≤ '9'

/-- ASCII hexadecimal digit. -/
def isHexDigit (c : Char) : Bool :=
  isJsonDigit c || ('a' ≤ c && c ≤ 'f') || ('A' ≤ c && c ≤ 'F')

/-- Accept the remainder of a JSON string after the opening quote,
returning the input after the closing quote. -/
def parseStrRest : Str → Option Str
  | [] => none
  | c :: rest =>
    if c = '"' then some rest
    else if c = '\\' then
      match rest with
      | [] => none
      | e :: rest' =>
        if e = '"' || e = '\\' || e = '/' || e = 'b' || e = 'f' || e = 'n' ||
           e = 'r' || e = 't' then parseStrRest rest'
        else if e = 'u' then
          match rest' with
          | h1 :: h2 :: h3 :: h4 :: rest'' =>
            if isHexDigit h1 && isHexDigit h2 && isHexDigit h3 &&
               isHexDigit h4 then parseStrRest rest'' else none
          | _ => none
        else none
    else if c.toNat < 32 then none
    else parseStrRest rest

/-- Accept a JSON fraction part, if present. -/
def parseFrac : Str → Option Str
  | '.' :: r =>
    (match r with
     | c :: _ => if isJsonDigit c then some (r.dropWhile isJsonDigit) else none
     | [] => none)
  | r => some r

/-- Accept the digits of an exponent (after an optional sign). -/
def expDigits (r : Str) : Option Str :=
  let r' := match r with | '+' :: t => t | '-' :: t => t | _ => r
  match r' with
  | c :: _ => if isJsonDigit c then some (r'.dropWhile isJsonDigit) else none
  | [] => none

/-- Accept a JSON exponent part, if present. -/
def parseExp : Str → Option Str
  | 'e' :: r => expDigits r
  | 'E' :: r => expDigits r
  | r => some r

/-- Accept a JSON number (no leading zeros, per the JSON grammar). -/
def parseNumber (s : Str) : Option Str :=
  let s1 := match s with | '-' :: r => r | _ => s
  let intPart : Option Str :=
    match s1 with
    | '0' :: r => some r
    | c :: r =>
      if '1' ≤ c && c ≤ '9' then some (r.dropWhile isJsonDigit) else none
    | [] => none
  match intPart with
  | none => none
  | some r =>
    match parseFrac r with
    | none => none
    | some r2 => parseExp r2

mutual

/-- Accept one JSON value; fuel decreases on each nesting step. -/
def parseValue : Nat → Str → Option Str
  | 0, _ => none
  | n + 1, s =>
    match s with
    | 't' :: 'r' :: 'u' :: 'e' :: r => some r
    | 'f' :: 'a' :: 'l' :: 's' :: 'e' :: r => some r
    | 'n' :: 'u' :: 'l' :: 'l' :: r => some r
    | '"' :: r => parseStrRest r
    | '\x7b' :: r => parseObjBody n (skipWS r)
    | '[' :: r => parseArrBody n (skipWS r)
    | _ => parseNumber s

/-- Accept the members of a JSON object after `\x7b` (whitespace already
skipped), including the closing `\x7d`. -/
def parseObjBody : Nat → Str → Option Str
  | 0, _ => none
  | n + 1, s =>
    match s with
    | '\x7d' :: r => some r
    | '"' :: r =>
      (match parseStrRest r with
       | none => none
       | some r1 =>
         match skipWS r1 with
         | ':' :: r2 =>
           (match parseValue n (skipWS r2) with
            | none => none
            | some r3 =>
              match skipWS r3 with
              | ',' :: r4 =>
                (match skipWS r4 with
                 | '"' :: _ => parseObjBody n (skipWS r4)
                 | _ => none)
              | '\x7d' :: r4 => some r4
              | _ => none)
         | _ => none)
    | _ => none

/-- Accept the elements of a JSON array after `[` (whitespace already
skipped), including the closing `]`. -/
def parseArrBody : Nat → Str → Option Str
  | 0, _ => none
  | n + 1, s =>
    match s with
    | ']' :: r => some r
    | _ =>
      match parseValue n s with
      | none => none
      | some r1 =>
        match skipWS r1 with
        | ',' :: r2 => parseArrBody n (skipWS r2)
        | ']' :: r2 => some r2
        | _ => none

end

/-- Embeds `isJSON` of output.go: does the whole input parse as one JSON
value (with surrounding whitespace)? The fuel is ample: the parser
consumes at least one character per two fuel steps. -/
def jsonValid (s : Str) : Bool :=
  match parseValue (2 * s.length + 8) (skipWS s) with
  | some rest => (skipWS rest).isEmpty
  | none => false

example : jsonValid "\x7b\"a\":1\x7d".data = true := by decide
example : jsonValid "[1, 2, 3]".data = true := by decide
example : jsonValid "\"hello\"".data = true := by decide
example : jsonValid "123".data = true := by decide
example : jsonValid " true ".data = true := by decide
example : jsonValid "null".data = true := by decide
example : jsonValid "\x7b\"a\": \x7b\"b\": [1, 2, 3]\x7d\x7d".data = true := by
  decide
example : jsonValid "hello".data = false := by decide
example : jsonValid "01".data = false := by decide
example : jsonValid "\x7b\"a\":1".data = false := by decide
example : jsonValid "1 2".data = false := by decide
example : jsonValid [] = false := by decide

/-! ## Response renderer (output.go) -/

/-- One rendering on the output sink: `json d` abstracts
`prettyPrint(d, out)` (the two-space-indent JSON re-serialization of `d`),
`raw d` abstracts `fmt.Fprintln(out, d)` (verbatim). -/
inductive OutItem where
  | json (data : Str)
  | raw (data : Str)
deriving DecidableEq

/-- The classification step shared by `handleResponse` and `handleSSE`:
JSON pretty-printing when the data parses as JSON, verbatim otherwise. -/
def renderData (d : Str) : OutItem :=
  if jsonValid d then .json d else .raw d

/-- The observable outcome of `handleResponse`: the returned error (if
any), the diagnostic lines written to stderr, and the renderings written
to the sink. -/
structure HandleResult where
  err : Option Str
  errOut : List Str
  sink : List OutItem
deriving DecidableEq

/-- Embeds `handleResponse` of output.go. `status` is `resp.Status` (the
textual status line), used only for the stderr diagnostic; reading the
body is assumed to succeed (transport errors are external). -/
def handleResponse (statusCode : Nat) (status : Str) (body : Str) :
    HandleResult :=
  if statusCode < 200 || statusCode ≥ 300 then
    { err := some ("request failed with status ".data ++
        (Nat.repr statusCode).data)
      errOut := ["Error: HTTP ".data ++ (Nat.repr statusCode).data ++
          " ".data ++ status] ++ (if body ≠ [] then [body] else [])
      sink := [] }
  else
    { err := none
      errOut := []
      sink := if body ≠ [] then [renderData body] else [] }

/-! ## SSE decoder (runtime_skel/sse.go) -/

/-- `MaxSSEEventSize` of sse.go: 10 MiB. -/
def MaxSSEEventSize : Nat := 10 * 1024 * 1024

/-- The fatal SSE error (`ErrSSEEventTooLarge`). -/
inductive SSEErr where
  | eventTooLarge
deriving DecidableEq

/-- The loop state of `handleSSE`: the `dataBuffer` accumulator and the
renderings already written to the sink. -/
structure SSEState where
  buf : Str
  out : List OutItem
deriving DecidableEq

/-- The event flush of `handleSSE` (both at a blank line and at end of
stream): trim the accumulated data and render it unless empty. -/
def flushEvent (buf : Str) : List OutItem :=
  let d := trimSpace buf
  if d = [] then [] else [renderData d]

/-- One iteration of `handleSSE`'s scanner loop on one line. -/
def processSSELine (st : SSEState) (line : Str) : Except SSEErr SSEState :=
  if line = [] then
    .ok (if st.buf.length > 0 then
          { buf := [], out := st.out ++ flushEvent st.buf }
         else st)
  else if hasPre ":".data line then .ok st
  else if hasPre "data:".data line then
    let d := trimSpace (line.drop 5)
    let newSize := st.buf.length + d.length + 1
    if newSize > MaxSSEEventSize then .error .eventTooLarge
    else .ok { st with
      buf := if st.buf.length > 0 then st.buf ++ '\n' :: d else st.buf ++ d }
  else .ok st

/-- The scanner loop of `handleSSE` followed by the end-of-stream flush. -/
def runSSE (st : SSEState) : List Str → Except SSEErr (List OutItem)
  | [] => .ok (st.out ++ flushEvent st.buf)
  | l :: ls =>
    match processSSELine st l with
    | .error e => .error e
    | .ok st' => runSSE st' ls

/-- Line splitting of `bufio.Scanner` with `ScanLines`: split at `\n`,
drop one trailing `\r` per line, no empty final token after a trailing
newline. (The scanner's 64 KiB token limit and reader errors are external
I/O concerns and are not modelled.) -/
def splitLinesAux : Str → Str → List Str
  | cur, [] => [cur.reverse]
  | cur, '\n' :: rest => cur.reverse :: splitLinesAux [] rest
  | cur, c :: rest => splitLinesAux (c :: cur) rest

/-- Strip one trailing carriage return (`dropCR` of bufio). -/
def dropCR (l : Str) : Str := if lastIs l '\r' then l.dropLast else l

/-- Embeds the line framing `bufio.NewScanner(reader)` gives `handleSSE`. -/
def goScanLines (s : Str) : List Str :=
  if s = [] then []
  else
    let parts := splitLinesAux [] s
    (if lastIs s '\n' then parts.dropLast else parts).map dropCR

/-- Embeds `handleSSE` of sse.go as a function from the full body to the
sequence of renderings (or the fatal oversize error). -/
def handleSSE (input : Str) : Except SSEErr (List OutItem) :=
  runSSE { buf := [], out := [] } (goScanLines input)

example : goScanLines "a\r\nb\n".data = ["a".data, "b".data] := by decide
example :
    handleSSE "data: \x7b\"a\":1\x7d\n\ndata: \x7b\"b\":2\x7d\n\n".data
    = .ok [.json "\x7b\"a\":1\x7d".data, .json "\x7b\"b\":2\x7d".data] := by
  decide
example :
    handleSSE "data: line one\ndata: line two\n\n".data
    = .ok [.raw "line one\nline two".data] := by decide
example :
    handleSSE ": keep-alive\nevent: tick\nid: 7\nretry: 100\ndata: ok\n".data
    = .ok [.raw "ok".data] := by decide

/-! ## Config resolver (runtime_skel/config.go) -/

/-- `Config` of config.go. -/
structure Config where
  BaseURL : Str
  Headers : List (Str × Str)
deriving DecidableEq

/-- Embeds `LoadConfig` of config.go. The optional YAML file stage is
external I/O: `fileCfg` is the `Config` value after that stage (the zero
config when no file loaded). `env` is `os.Getenv`, returning the empty
string for unset variables. The environment stage overrides `BaseURL`
when `<APP>_BASE_URL` is non-empty. -/
def loadConfig (appName : Str) (fileCfg : Config) (env : Str → Str) :
    Config :=
  let key := goToUpper appName ++ "_".data ++ "BASE_URL".data
  if env key ≠ [] then { fileCfg with BaseURL := env key } else fileCfg

/-- `GetEnvOrConfig` of config.go: explicit environment variable first,
then the named key of the loaded config's header map, then the caller's
default. -/
def GetEnvOrConfig (env : Str → Str) (envVar configKey defaultValue : Str)
    (config : Option Config) : Str :=
  if env envVar ≠ [] then env envVar
  else
    match config with
    | some cfg =>
      if configKey ≠ [] then
        match lookupA cfg.Headers configKey with
        | some v => v
        | none => defaultValue
      else defaultValue
    | none => defaultValue

/-! ## General lemmas about the embedded primitives -/

theorem char_toNat_ofNat (n : Nat) (hv : n.isValidChar) :
    (Char.ofNat n).toNat = n := by
  unfold Char.ofNat
  rw [dif_pos hv]
  unfold Char.ofNatAux
  unfold Char.toNat
  simp [UInt32.toNat, UInt32.ofNat']

theorem hasPre_iff (p s : Str) : hasPre p s = true ↔ ∃ t, s = p ++ t := by
  induction p generalizing s with
  | nil => simp [hasPre]
  | cons c cs ih =>
    cases s with
    | nil => simp [hasPre]
    | cons d ds =>
      simp only [hasPre, Bool.and_eq_true, decide_eq_true_eq, ih,
        List.cons_append, List.cons.injEq]
      constructor
      · rintro ⟨rfl, t, rfl⟩; exact ⟨t, rfl, rfl⟩
      · rintro ⟨t, rfl, rfl⟩; exact ⟨rfl, t, rfl⟩

theorem containsB_iff (s pat : Str) :
    containsB s pat = true ↔ ∃ a b, s = a ++ (pat ++ b) := by
  induction s with
  | nil =>
    rw [containsB]
    simp only [Bool.or_false, hasPre_iff]
    constructor
    · rintro ⟨t, ht⟩; exact ⟨[], t, ht⟩
    · rintro ⟨a, b, hab⟩
      have : a = [] := by
        cases a with
        | nil => rfl
        | cons x xs => simp at hab
      subst this
      exact ⟨b, by simpa using hab⟩
  | cons c rest ih =>
    rw [containsB]
    simp only [Bool.or_eq_true, hasPre_iff, ih]
    constructor
    · rintro (⟨t, ht⟩ | ⟨a, b, hab⟩)
      · exact ⟨[], t, by simpa using ht⟩
      · exact ⟨c :: a, b, by simp [hab]⟩
    · rintro ⟨a, b, hab⟩
      cases a with
      | nil => exact Or.inl ⟨b, by simpa using hab⟩
      | cons x xs =>
        simp only [List.cons_append, List.cons.injEq] at hab
        exact Or.inr ⟨xs, b, hab.2⟩

theorem lookupA_mapSet_self (h : List (Str × Str)) (k v : Str) :
    lookupA (mapSet h k v) k = some v := by
  induction h with
  | nil => simp [mapSet, lookupA]
  | cons kv rest ih =>
    by_cases hk : kv.1 = k
    · simp [mapSet, hk, lookupA]
    · simpa [mapSet, hk, lookupA] using ih

/-! ## Sortedness of the group keys -/

/-- Adjacent-pairs sortedness for the byte-lexicographic order. -/
def sortedB : List Str → Bool
  | [] => true
  | [_] => true
  | x :: y :: r => strLeB x y && sortedB (y :: r)

theorem strLeB_total (a b : Str) : strLeB a b = true ∨ strLeB b a = true := by
  induction a generalizing b with
  | nil => left; rfl
  | cons c cs ih =>
    cases b with
    | nil => right; rfl
    | cons d ds =>
      by_cases hcd : c = d
      · subst hcd
        rcases ih ds with h | h
        · left; simpa [strLeB] using h
        · right; simpa [strLeB] using h
      · have hdc : d ≠ c := fun h => hcd h.symm
        rcases Nat.le_total c.toNat d.toNat with h | h
        · left; simp [strLeB, hcd, h]
        · right; simp [strLeB, hdc, h]

theorem insertStr_sorted (x : Str) :
    ∀ l, sortedB l = true → sortedB (insertStr x l) = true := by
  intro l
  induction l with
  | nil => intro _; rfl
  | cons y ys ih =>
    intro hs
    by_cases hxy : strLeB x y = true
    · simp only [insertStr, if_pos hxy]
      show (strLeB x y && sortedB (y :: ys)) = true
      simp [hxy, hs]
    · simp only [insertStr, if_neg hxy]
      have hyx : strLeB y x = true := by
        rcases strLeB_total x y with h | h
        · exact absurd h hxy
        · exact h
      cases ys with
      | nil =>
        show (strLeB y x && sortedB [x]) = true
        simp [hyx]; rfl
      | cons z zs =>
        have hyz : strLeB y z = true := by
          have : (strLeB y z && sortedB (z :: zs)) = true := hs
          exact (Bool.and_eq_true _ _).mp this |>.1
        have hzs : sortedB (z :: zs) = true := by
          have : (strLeB y z && sortedB (z :: zs)) = true := hs
          exact (Bool.and_eq_true _ _).mp this |>.2
        by_cases hxz : strLeB x z = true
        · simp only [insertStr, if_pos hxz]
          show (strLeB y x && sortedB (x :: z :: zs)) = true
          have : sortedB (x :: z :: zs) = (strLeB x z && sortedB (z :: zs)) := rfl
          simp [hyx, this, hxz, hzs]
        · have hins : sortedB (insertStr x (z :: zs)) = true := ih hzs
          simp only [insertStr, if_neg hxz] at hins ⊢
          show (strLeB y z && sortedB (z :: insertStr x zs)) = true
          simp [hyz, hins]

theorem sortStrs_sorted (l : List Str) : sortedB (sortStrs l) = true := by
  induction l with
  | nil => rfl
  | cons a l ih => exact insertStr_sorted a _ ih

/-! ## C8, C9: response renderer and config resolver -/

/-- C8: `handleResponse` returns an error exactly for a status outside
[200,299]; the error carries the numeric status code and is independent of
the body (the body appears only in stderr diagnostics); a 2xx response
with an empty body writes nothing to the sink. -/
theorem handleResponse_error_iff :
    (∀ (code : Nat) (status body : Str),
      ((handleResponse code status body).err ≠ none ↔ (code < 200 ∨ 300 ≤ code)))
    ∧ (∀ (code : Nat) (status body : Str), code < 200 ∨ 300 ≤ code →
        (handleResponse code status body).err
          = some ("request failed with status ".data ++ (Nat.repr code).data))
    ∧ (∀ (code : Nat) (status body body' : Str),
        (handleResponse code status body).err
          = (handleResponse code status body').err)
    ∧ (∀ (code : Nat) (status : Str), 200 ≤ code → code < 300 →
        (handleResponse code status []).sink = []) := by
  refine ⟨?_, ?_, ?_, ?_⟩
  · intro code status body
    by_cases h : code < 200 ∨ 300 ≤ code
    · have ho : (decide (code < 200) || decide (code ≥ 300)) = true := by
        simp only [Bool.or_eq_true, decide_eq_true_eq]; omega
      simp [handleResponse, ho]
      exact h
    · have ho : (decide (code < 200) || decide (code ≥ 300)) = false := by
        simp only [Bool.or_eq_false_iff, decide_eq_false_iff_not]
        constructor <;> omega
      simp [handleResponse, ho]
      omega
  · intro code status body h
    have ho : (decide (code < 200) || decide (code ≥ 300)) = true := by
      simp only [Bool.or_eq_true, decide_eq_true_eq]; omega
    simp [handleResponse, ho]
  · intro code status body body'
    by_cases h : code < 200 ∨ 300 ≤ code
    · have ho : (decide (code < 200) || decide (code ≥ 300)) = true := by
        simp only [Bool.or_eq_true, decide_eq_true_eq]; omega
      simp [handleResponse, ho]
    · have ho : (decide (code < 200) || decide (code ≥ 300)) = false := by
        simp only [Bool.or_eq_false_iff, decide_eq_false_iff_not]
        constructor <;> omega
      simp [handleResponse, ho]
  · intro code status h1 h2
    have ho : (decide (code < 200) || decide (code ≥ 300)) = false := by
      simp only [Bool.or_eq_false_iff, decide_eq_false_iff_not]
      constructor <;> omega
    simp [handleResponse, ho]

/-- C8 witness: concrete instances of the conditional parts. -/
theorem handleResponse_error_iff_witness :
    ((handleResponse 404 "404 Not Found".data "oops".data).err
      = some "request failed with status 404".data)
    ∧ (handleResponse 204 "204 No Content".data []).sink = [] := by
  constructor
  · have := handleResponse_error_iff.2.1 404 "404 Not Found".data "oops".data
      (by omega)
    simpa using this
  · exact handleResponse_error_iff.2.2.2 204 "204 No Content".data
      (by omega) (by omega)

/-- C9: `LoadConfig` lets a non-empty `<APP>_BASE_URL` environment value
override the file's `base_url`, and keeps the file's value when the
variable is unset (empty). -/
theorem loadConfig_env_overrides :
    ∀ (appName : Str) (fileCfg : Config) (env : Str → Str),
      (env (goToUpper appName ++ "_".data ++ "BASE_URL".data) ≠ [] →
        (loadConfig appName fileCfg env).BaseURL
          = env (goToUpper appName ++ "_".data ++ "BASE_URL".data))
      ∧ (env (goToUpper appName ++ "_".data ++ "BASE_URL".data) = [] →
        (loadConfig appName fileCfg env).BaseURL = fileCfg.BaseURL) := by
  intro appName fileCfg env
  constructor
  · intro h
    simp only [loadConfig]
    rw [if_pos h]
  · intro h
    simp only [loadConfig]
    rw [if_neg (fun hc => hc h)]

/-- C9 witness: with both a file value and the environment variable set,
the environment wins; with it empty, the file value is kept. -/
theorem loadConfig_env_overrides_witness :
    (loadConfig "myapp".data
        { BaseURL := "https://file.example".data, Headers := [] }
        (fun k => if k = "MYAPP_BASE_URL".data
                  then "https://env.example".data else [])).BaseURL
      = "https://env.example".data
    ∧ (loadConfig "myapp".data
        { BaseURL := "https://file.example".data, Headers := [] }
        (fun _ => [])).BaseURL = "https://file.example".data := by
  constructor
  · exact (loadConfig_env_overrides "myapp".data
      { BaseURL := "https://file.example".data, Headers := [] }
      (fun k => if k = "MYAPP_BASE_URL".data
                then "https://env.example".data else [])).1 (by decide)
  · exact (loadConfig_env_overrides "myapp".data
      { BaseURL := "https://file.example".data, Headers := [] }
      (fun _ => [])).2 rfl

/-! ## C1, C10: request builder -/

/-- The `missing` list computed by `Build`: placeholders of the path
template with no entry in the path-parameter map, in occurrence order. -/
def missingOf (r : Request) : List Str :=
  (findPlaceholders r.Path).filter (fun n => (lookupA r.PathParams n).isNone)

/-- The request used by the spec's path-parameter-completeness example:
template `/users/(id)/posts/(postId)` with only `id` supplied. -/
def exReqC1 : Request :=
  SetPathParam
    (NewRequest "GET".data "/users/\x7bid\x7d/posts/\x7bpostId\x7d".data)
    "id".data "42".data

/-- C1: whenever some placeholder of the path template has no supplied
value, `Build` fails with a message joining exactly the missing
placeholder names with a comma; every listed name is indeed unsupplied and
every unsupplied placeholder is listed. For the template
`/users/(id)/posts/(postId)` with only `id` set, the missing list is
exactly `[postId]` — so the message contains `postId` and does not claim
`id` is missing. -/
theorem requestBuild_missing_params :
    (∀ (r : Request) (base : Str), missingOf r ≠ [] →
      requestBuild r base
        = .error ("missing required path parameter(s): ".data ++
            joinSep ", ".data (missingOf r))
      ∧ (∀ n ∈ missingOf r, lookupA r.PathParams n = none)
      ∧ (∀ n ∈ findPlaceholders r.Path,
          lookupA r.PathParams n = none → n ∈ missingOf r))
    ∧ missingOf exReqC1 = ["postId".data]
    ∧ requestBuild exReqC1 "https://x".data
        = .error "missing required path parameter(s): postId".data
    ∧ "id".data ∉ missingOf exReqC1 := by
  refine ⟨?_, by decide, by decide, by decide⟩
  intro r base hm
  refine ⟨?_, ?_, ?_⟩
  · simp only [requestBuild, missingOf] at hm ⊢
    rw [if_pos hm]
  · intro n hn
    have := List.of_mem_filter hn
    simpa [Option.isNone_iff_eq_none] using this
  · intro n hn hnone
    exact List.mem_filter.mpr ⟨hn, by simp [hnone]⟩

/-- C1 witness: the general part applied to the concrete example. -/
theorem requestBuild_missing_params_witness :
    requestBuild exReqC1 "https://x".data
      = .error ("missing required path parameter(s): ".data ++
          joinSep ", ".data (missingOf exReqC1))
    ∧ "postId".data ∈ missingOf exReqC1 := by
  have h := requestBuild_missing_params.1 exReqC1 "https://x".data (by decide)
  exact ⟨h.1, by decide⟩

/-- The concrete request of C10: a caller-set `Content-Type` and a body. -/
def exReqC10 : Request :=
  SetBody
    (SetHeader (NewRequest "POST".data "/things".data)
      "Content-Type".data "text/plain".data)
    "\x7b\x7d".data

/-- C10: a built request with a body always carries
`Content-Type: application/json` (the automatic value is applied after the
per-request headers, overwriting any caller-set content type); with no
body, the built headers are exactly the fold of the caller's headers and
`Build` adds no `Content-Type` of its own. -/
theorem requestBuild_content_type :
    (∀ (r : Request) (base : Str) (req : HttpRequest),
      requestBuild r base = .ok req →
      (r.Body.isSome →
        lookupA req.Header "Content-Type".data
          = some "application/json".data)
      ∧ (r.Body = none →
        req.Header = r.Headers.foldl (fun h kv => headerSet h kv.1 kv.2) []))
    ∧ requestBuild exReqC10 "https://h".data
        = .ok { Method := "POST".data, URL := "https://h/things".data,
                Header := [("Content-Type".data, "application/json".data)],
                Body := some "\x7b\x7d".data } := by
  refine ⟨?_, by decide⟩
  intro r base req hok
  simp only [requestBuild] at hok
  by_cases hm :
      (findPlaceholders r.Path).filter
        (fun n => (lookupA r.PathParams n).isNone) ≠ [] 
  · rw [if_pos hm] at hok
    cases hok
  · rw [if_neg hm] at hok
    have hreq := (Except.ok.injEq _ _).mp hok
    constructor
    · intro hb
      match hbody : r.Body with
      | none => rw [hbody] at hb; cases hb
      | some b =>
        rw [hbody] at hreq
        have hh : req.Header
            = headerSet
                (r.Headers.foldl (fun h kv => headerSet h kv.1 kv.2) [])
                "Content-Type".data "application/json".data := by
          rw [← hreq]
        rw [hh]
        have hcanon : canonicalMIMEHeaderKey "Content-Type".data
            = "Content-Type".data := by decide
        unfold headerSet
        rw [hcanon]
        exact lookupA_mapSet_self _ _ _
    · intro hbody
      rw [hbody] at hreq
      rw [← hreq]

/-- C10 witness: the general part applied to the concrete request with a
caller-set `Content-Type` and a body. -/
theorem requestBuild_content_type_witness :
    lookupA (HttpRequest.Header
        { Method := "POST".data, URL := "https://h/things".data,
          Header := [("Content-Type".data, "application/json".data)],
          Body := some "\x7b\x7d".data }) "Content-Type".data
      = some "application/json".data := by
  exact (requestBuild_content_type.1 exReqC10 "https://h".data _
    (by decide)).1 (by decide)

/-! ## C2, C3: positional/flag partitioning -/

theorem posLoop_spec (l : List Param) :
    posLoop l = ((l.filter paramIsPositional).map buildParamPlan,
                 (l.filter (fun p => !paramIsPositional p)).map buildParamPlan)
    := by
  induction l with
  | nil => rfl
  | cons p rest ih =>
    by_cases h : paramIsPositional p = true
    · simp [posLoop, ih, h]
    · simp only [Bool.not_eq_true] at h
      simp [posLoop, ih, h]

/-- A plain path parameter with no overrides. -/
def mkPathParam (name : Str) : Param :=
  { Name := name, In := "path".data, Required := true,
    Type' := "string".data, Format := [], Default := none, Min := none,
    Max := none, Description := [], Cli := none }

/-- The parameter of the spec's override-precedence example: location
`path`, flag override `org`, tri-state `positional = false`. -/
def exParamC2 : Param :=
  { Name := "orgId".data, In := "path".data, Required := true,
    Type' := "string".data, Format := [], Default := none, Min := none,
    Max := none, Description := [],
    Cli := some { Flag := "org".data, Shorthand := [], Env := [],
                  ConfigKey := [], Positional := some false } }

/-- Operation holding `exParamC2`. -/
def exOpC2 : Operation :=
  { Tag := "orgs".data, Method := "GET".data,
    Path := "/orgs/\x7borgId\x7d".data, OperationID := "getOrg".data,
    Summary := [], Description := [], Params := [exParamC2],
    RequestBody := none, Responses := [], Cli := none }

/-- C2: a parameter lands in `Positionals` exactly when its location is
`path` and its tri-state positional override is not explicitly false; in
particular the path parameter with flag override `org` and
`positional = false` is emitted as the flag `org` and not as a
positional. -/
theorem buildOpPlan_positional_iff :
    (∀ (g : Str) (op : Operation),
      (buildOpPlan g op).Positionals
        = (op.Params.filter
            (fun p => decide (p.In = "path".data) && paramIsPositional p)).map
              buildParamPlan)
    ∧ (buildOpPlan "orgs".data exOpC2).Positionals = []
    ∧ (buildOpPlan "orgs".data exOpC2).Flags.map ParamPlan.FlagName
        = ["org".data] := by
  refine ⟨?_, by decide, by decide⟩
  intro g op
  simp [buildOpPlan, posLoop_spec, List.filter_filter]
  congr 1
  apply List.filter_congr
  intro a _
  exact Bool.and_comm _ _

/-- Operation whose parameter list orders its two path parameters
opposite to their occurrence in the path template. -/
def exOpC3 : Operation :=
  { Tag := "t".data, Method := "GET".data,
    Path := "/a/\x7bx\x7d/\x7by\x7d".data, OperationID := "opA".data,
    Summary := [], Description := [],
    Params := [mkPathParam "y".data, mkPathParam "x".data],
    RequestBody := none, Responses := [], Cli := none }

/-- C3 counterexample: the positionals follow the parameter-list order
`y, x`, not the path-template occurrence order `x, y`. -/
theorem buildOpPlan_positional_order_counterexample :
    (buildOpPlan "t".data exOpC3).Positionals.map ParamPlan.Name
      = ["y".data, "x".data]
    ∧ findPlaceholders exOpC3.Path = ["x".data, "y".data]
    ∧ (buildOpPlan "t".data exOpC3).Positionals.map ParamPlan.Name
        ≠ findPlaceholders exOpC3.Path := by decide

/-- C3 amended: positionals are the non-forced path parameters in the
order they appear in the operation's parameter list (not necessarily the
template's placeholder order), and the flags are the forced-to-flag path
parameters, in their parameter-list order, followed by all non-path
parameters in input order. -/
theorem buildOpPlan_partition_order :
    ∀ (g : Str) (op : Operation),
      (buildOpPlan g op).Positionals
        = (op.Params.filter
            (fun p => decide (p.In = "path".data) && paramIsPositional p)).map
              buildParamPlan
      ∧ (buildOpPlan g op).Flags
        = (op.Params.filter
            (fun p => decide (p.In = "path".data) && !paramIsPositional p)).map
              buildParamPlan
          ++ (op.Params.filter (fun p => ¬(p.In = "path".data))).map
              buildParamPlan := by
  intro g op
  constructor
  · simp [buildOpPlan, posLoop_spec, List.filter_filter]
    congr 1
    apply List.filter_congr
    intro a _
    exact Bool.and_comm _ _
  · simp [buildOpPlan, posLoop_spec, List.filter_filter]
    congr 1
    apply List.filter_congr
    intro a _
    exact Bool.and_comm _ _

/-! ## C5, C6: SSE decoder -/

/-- C5: blank lines are event boundaries (the accumulated data, trimmed,
is rendered as JSON when it parses and verbatim otherwise, and the
accumulator resets); non-blank lines that are not `data:` lines (comments
starting with `:`, and `event:`/`id:`/`retry:` fields) change nothing;
the end of the stream flushes any remaining data. The example body with
two JSON events renders exactly two pretty-printed JSON events, and two
consecutive `data:` lines of one event are joined by a newline before
classification. -/
theorem handleSSE_framing :
    handleSSE "data: \x7b\"a\":1\x7d\n\ndata: \x7b\"b\":2\x7d\n\n".data
      = .ok [.json "\x7b\"a\":1\x7d".data, .json "\x7b\"b\":2\x7d".data]
    ∧ handleSSE "data: line one\ndata: line two\n\n".data
        = .ok [.raw "line one\nline two".data]
    ∧ (∀ (st : SSEState),
        processSSELine st []
          = .ok { buf := [], out := st.out ++ flushEvent st.buf })
    ∧ (∀ (st : SSEState) (line : Str), line ≠ [] →
        hasPre "data:".data line = false → processSSELine st line = .ok st)
    ∧ (∀ (st : SSEState), runSSE st [] = .ok (st.out ++ flushEvent st.buf))
    := by
  refine ⟨by decide, by decide, ?_, ?_, ?_⟩
  · intro st
    by_cases hb : st.buf.length > 0
    · simp [processSSELine, hb]
    · have hnil : st.buf = [] := by
        cases hbuf : st.buf with
        | nil => rfl
        | cons c r => rw [hbuf] at hb; simp at hb
      cases st
      simp_all [processSSELine, flushEvent, trimSpace]
  · intro st line hne hnd
    simp only [processSSELine]
    rw [if_neg hne]
    by_cases hc : hasPre ":".data line = true
    · rw [if_pos hc]
    · rw [if_neg hc]
      rw [hnd]
      simp
  · intro st
    rfl

/-- C5 witness: the step equations at concrete states and lines. -/
theorem handleSSE_framing_witness :
    processSSELine { buf := "x".data, out := [] } []
      = .ok { buf := [], out := [.raw "x".data] }
    ∧ processSSELine { buf := "x".data, out := [] } ": ping".data
      = .ok { buf := "x".data, out := [] }
    ∧ processSSELine { buf := "x".data, out := [] } "event: tick".data
      = .ok { buf := "x".data, out := [] }
    ∧ runSSE { buf := "x".data, out := [] } []
      = .ok [.raw "x".data] := by
  refine ⟨?_, ?_, ?_, ?_⟩
  · have h := handleSSE_framing.2.2.1 { buf := "x".data, out := [] }
    simpa using h
  · exact handleSSE_framing.2.2.2.1 { buf := "x".data, out := [] }
      ": ping".data (by decide) (by decide)
  · exact handleSSE_framing.2.2.2.1 { buf := "x".data, out := [] }
      "event: tick".data (by decide) (by decide)
  · have h := handleSSE_framing.2.2.2.2 { buf := "x".data, out := [] }
    simpa using h

/-- C6: the accumulated event size is bounded: a `processSSELine` step
from a state within the 10 MiB cap stays within the cap; a `data:` line
whose accumulation would pass the cap yields the fatal
`ErrSSEEventTooLarge`; and a failing step aborts the whole run, so no
further events are decoded. -/
theorem handleSSE_size_cap :
    (∀ (st : SSEState) (line : Str) (st' : SSEState),
      st.buf.length ≤ MaxSSEEventSize → processSSELine st line = .ok st' →
      st'.buf.length ≤ MaxSSEEventSize)
    ∧ (∀ (st : SSEState) (line : Str),
        hasPre "data:".data line = true →
        st.buf.length + (trimSpace (line.drop 5)).length + 1
          > MaxSSEEventSize →
        processSSELine st line = .error .eventTooLarge)
    ∧ (∀ (st : SSEState) (line : Str) (rest : List Str) (e : SSEErr),
        processSSELine st line = .error e →
        runSSE st (line :: rest) = .error e) := by
  refine ⟨?_, ?_, ?_⟩
  · intro st line st' hcap hok
    by_cases hne : line = []
    · subst hne
      simp only [processSSELine, if_pos rfl] at hok
      by_cases hb : st.buf.length > 0
      · rw [if_pos hb] at hok
        cases hok
        simp [MaxSSEEventSize]
      · rw [if_neg hb] at hok
        cases hok
        exact hcap
    · simp only [processSSELine] at hok
      rw [if_neg hne] at hok
      by_cases hc : hasPre ":".data line = true
      · rw [if_pos hc] at hok
        cases hok
        exact hcap
      · rw [if_neg hc] at hok
        by_cases hd : hasPre "data:".data line = true
        · rw [if_pos hd] at hok
          by_cases hsz : st.buf.length + (trimSpace (line.drop 5)).length + 1
              > MaxSSEEventSize
          · rw [if_pos hsz] at hok
            cases hok
          · rw [if_neg hsz] at hok
            cases hok
            by_cases hb : st.buf.length > 0
            · simp only [if_pos hb, List.length_append, List.length_cons]
              omega
            · simp only [if_neg hb, List.length_append]
              omega
        · rw [if_neg hd] at hok
          cases hok
          exact hcap
  · intro st line hd hsz
    have hne : line ≠ [] := by
      intro h
      rw [h] at hd
      cases hd
    have hc : hasPre ":".data line = false := by
      rcases (hasPre_iff "data:".data line).mp hd with ⟨t, rfl⟩
      simp [hasPre]
    simp only [processSSELine]
    rw [if_neg hne, hc]
    simp only [Bool.false_eq_true, if_false]
    rw [if_pos hd, if_pos hsz]
  · intro st line rest e herr
    simp only [runSSE, herr]

/-- C6 witness: a state holding exactly 10 MiB plus one more `data:` line
is rejected with the fatal error, the run aborts, and a small step stays
within the cap. -/
theorem handleSSE_size_cap_witness :
    processSSELine { buf := List.replicate MaxSSEEventSize 'a', out := [] }
        "data: b".data = .error SSEErr.eventTooLarge
    ∧ runSSE { buf := List.replicate MaxSSEEventSize 'a', out := [] }
        ["data: b".data, "data: c".data] = .error SSEErr.eventTooLarge
    ∧ (("x".data ++ '\n' :: "y".data : Str).length ≤ MaxSSEEventSize) := by
  have hproj : SSEState.buf
      { buf := List.replicate MaxSSEEventSize 'a', out := [] }
      = List.replicate MaxSSEEventSize 'a' := rfl
  have hsz : (SSEState.buf
        { buf := List.replicate MaxSSEEventSize 'a', out := [] }).length
      + (trimSpace (List.drop 5 "data: b".data)).length + 1
      > MaxSSEEventSize := by
    rw [hproj, List.length_replicate]; omega
  have hd : hasPre "data:".data "data: b".data = true := by decide
  have h1 := handleSSE_size_cap.2.1
    { buf := List.replicate MaxSSEEventSize 'a', out := [] } "data: b".data
    hd hsz
  have hcap : (SSEState.buf { buf := "x".data, out := [] }).length
      ≤ MaxSSEEventSize := by decide
  have hok : processSSELine { buf := "x".data, out := [] } "data: y".data
      = .ok { buf := "x".data ++ '\n' :: "y".data, out := [] } := by decide
  exact ⟨h1, handleSSE_size_cap.2.2
      { buf := List.replicate MaxSSEEventSize 'a', out := [] }
      "data: b".data ["data: c".data] .eventTooLarge h1,
    handleSSE_size_cap.1 { buf := "x".data, out := [] } "data: y".data
      { buf := "x".data ++ '\n' :: "y".data, out := [] } hcap hok⟩

/-! ## C7, C4: the kebab-case algorithm and group naming -/

/-- The ASCII shape of `toKebabCase` output: no ASCII uppercase letter, no
underscore, no space (hyphens and everything else pass; a non-ASCII
uppercase letter without a lowercase mapping survives `toKebabCase`, so
the shape is deliberately byte/ASCII-level). -/
def cleanB (c : Char) : Bool :=
  !isAsciiUpper c && !decide (c = '_') && !decide (c = ' ')

theorem isAsciiUpper_spec (c : Char) :
    isAsciiUpper c = true ↔ 65 ≤ c.toNat ∧ c.toNat ≤ 90 := by
  simp [isAsciiUpper]

theorem goIsUpper_spec (c : Char) :
    goIsUpper c = true
      ↔ (65 ≤ c.toNat ∧ c.toNat ≤ 90)
        ∨ (119808 ≤ c.toNat ∧ c.toNat ≤ 119833) := by
  simp [goIsUpper, isAsciiUpper]

theorem goToLower_toNat (c : Char) (h : isAsciiUpper c = true) :
    (goToLower c).toNat = c.toNat + 32 := by
  rcases (isAsciiUpper_spec c).mp h with ⟨h1, h2⟩
  unfold goToLower
  rw [if_pos h]
  exact char_toNat_ofNat _ (Or.inl (by omega))

theorem cleanB_goToLower (c : Char) (h : goIsUpper c = true) :
    cleanB (goToLower c) = true := by
  by_cases ha : isAsciiUpper c = true
  · rcases (isAsciiUpper_spec c).mp ha with ⟨h1, h2⟩
    have ht := goToLower_toNat c ha
    have hu : isAsciiUpper (goToLower c) = false := by
      simp only [isAsciiUpper, ht, Bool.and_eq_false_iff,
        decide_eq_false_iff_not]
      right; omega
    have h3 : goToLower c ≠ '_' := by
      intro he
      have h95 : ('_' : Char).toNat = 95 := rfl
      rw [he] at ht
      omega
    have h4 : goToLower c ≠ ' ' := by
      intro he
      have h32 : (' ' : Char).toNat = 32 := rfl
      rw [he] at ht
      omega
    simp [cleanB, hu, h3, h4]
  · have hlo : goToLower c = c := by
      unfold goToLower
      rw [if_neg ha]
    have hrange : 119808 ≤ c.toNat ∧ c.toNat ≤ 119833 := by
      rcases (goIsUpper_spec c).mp h with hr | hr
      · exact absurd ((isAsciiUpper_spec c).mpr hr) ha
      · exact hr
    have hu : isAsciiUpper c = false := Bool.not_eq_true _ |>.mp ha
    have h3 : c ≠ '_' := by
      intro he
      have h95 : ('_' : Char).toNat = 95 := rfl
      rw [he] at hrange
      omega
    have h4 : c ≠ ' ' := by
      intro he
      have h32 : (' ' : Char).toNat = 32 := rfl
      rw [he] at hrange
      omega
    rw [hlo]
    simp [cleanB, hu, h3, h4]

theorem kebabCore_cons (prev : Option Char) (d : Char) (rest : Str) :
    kebabCore prev (d :: rest)
      = (if goIsUpper d then
          (match prev with
           | none => [goToLower d]
           | some p =>
             if !goIsUpper p && p ≠ '-' && p ≠ '_' then ['-', goToLower d]
             else [goToLower d])
         else if d = '_' || d = ' ' then ['-']
         else [d]) ++ kebabCore (some d) rest := rfl

theorem kebabCore_clean :
    ∀ (s : Str) (prev : Option Char), ∀ c ∈ kebabCore prev s,
      cleanB c = true := by
  intro s
  induction s with
  | nil => intro prev c hc; simp [kebabCore] at hc
  | cons d rest ih =>
    intro prev c hc
    rw [kebabCore_cons] at hc
    rcases List.mem_append.mp hc with hin | hin
    · by_cases hu : goIsUpper d = true
      · rw [if_pos hu] at hin
        cases prev with
        | none =>
          have hin' : c ∈ [goToLower d] := hin
          simp only [List.mem_singleton] at hin'
          subst hin'
          exact cleanB_goToLower d hu
        | some p =>
          have hin' : c ∈ (if !goIsUpper p && p ≠ '-' && p ≠ '_'
              then ['-', goToLower d] else [goToLower d]) := hin
          by_cases hp : (!goIsUpper p && p ≠ '-' && p ≠ '_') = true
          · rw [if_pos hp] at hin'
            rcases List.mem_cons.mp hin' with rfl | hin'
            · decide
            · simp only [List.mem_singleton] at hin'
              subst hin'
              exact cleanB_goToLower d hu
          · rw [if_neg hp] at hin'
            simp only [List.mem_singleton] at hin'
            subst hin'
            exact cleanB_goToLower d hu
      · rw [if_neg hu] at hin
        by_cases hd : ((d = '_' : Bool) || (d = ' ' : Bool)) = true
        · rw [if_pos hd] at hin
          simp only [List.mem_singleton] at hin
          subst hin
          decide
        · rw [if_neg hd] at hin
          simp only [List.mem_singleton] at hin
          subst hin
          simp only [Bool.or_eq_true, decide_eq_true_eq] at hd
          push_neg at hd
          simp only [Bool.not_eq_true] at hu
          simp only [goIsUpper, Bool.or_eq_false_iff] at hu
          simp [cleanB, hu.1, hd.1, hd.2]
    · exact ih (some d) c hin

theorem kebabCore_id :
    ∀ (s : Str) (prev : Option Char),
      (∀ c ∈ s, cleanB c = true ∧ c.toNat < 128) →
      kebabCore prev s = s := by
  intro s
  induction s with
  | nil => intro prev _; rfl
  | cons d rest ih =>
    intro prev hall
    obtain ⟨hclean, hascii⟩ := hall d (List.mem_cons_self d rest)
    simp only [cleanB, Bool.and_eq_true, Bool.not_eq_true',
      decide_eq_false_iff_not] at hclean
    have hup : goIsUpper d = false := by
      simp only [goIsUpper, Bool.or_eq_false_iff]
      refine ⟨hclean.1.1, ?_⟩
      simp only [Bool.and_eq_false_iff, decide_eq_false_iff_not]
      left; omega
    rw [kebabCore_cons]
    rw [if_neg (by rw [hup]; exact Bool.false_ne_true)]
    rw [if_neg (by simp [hclean.1.2, hclean.2])]
    simp only [List.singleton_append, List.cons.injEq]
    exact ⟨trivial, ih (some d) (fun c hc => hall c (List.mem_cons_of_mem d hc))⟩

theorem kebabCore_ascii :
    ∀ (s : Str) (prev : Option Char), (∀ c ∈ s, c.toNat < 128) →
      ∀ c ∈ kebabCore prev s, c.toNat < 128 := by
  intro s
  induction s with
  | nil => intro prev _ c hc; simp [kebabCore] at hc
  | cons d rest ih =>
    intro prev hall c hc
    have hd := hall d (List.mem_cons_self d rest)
    rw [kebabCore_cons] at hc
    rcases List.mem_append.mp hc with hin | hin
    · have hlow : (goToLower d).toNat < 128 := by
        by_cases ha : isAsciiUpper d = true
        · have ht := goToLower_toNat d ha
          rcases (isAsciiUpper_spec d).mp ha with ⟨_, h2⟩
          omega
        · unfold goToLower
          rw [if_neg ha]
          exact hd
      by_cases hu : goIsUpper d = true
      · rw [if_pos hu] at hin
        cases prev with
        | none =>
          have hin' : c ∈ [goToLower d] := hin
          simp only [List.mem_singleton] at hin'
          subst hin'
          exact hlow
        | some p =>
          have hin' : c ∈ (if !goIsUpper p && p ≠ '-' && p ≠ '_'
              then ['-', goToLower d] else [goToLower d]) := hin
          by_cases hp : (!goIsUpper p && p ≠ '-' && p ≠ '_') = true
          · rw [if_pos hp] at hin'
            rcases List.mem_cons.mp hin' with rfl | hin'
            · decide
            · simp only [List.mem_singleton] at hin'
              subst hin'
              exact hlow
          · rw [if_neg hp] at hin'
            simp only [List.mem_singleton] at hin'
            subst hin'
            exact hlow
      · rw [if_neg hu] at hin
        by_cases hd2 : ((d = '_' : Bool) || (d = ' ' : Bool)) = true
        · rw [if_pos hd2] at hin
          simp only [List.mem_singleton] at hin
          subst hin
          decide
        · rw [if_neg hd2] at hin
          simp only [List.mem_singleton] at hin
          subst hin
          exact hd
    · exact ih (some d) (fun x hx => hall x (List.mem_cons_of_mem d hx)) c hin

theorem mem_replaceDD : ∀ (s : Str) (c : Char), c ∈ replaceDD s → c ∈ s := by
  intro s
  induction s using replaceDD.induct with
  | case1 rest ih =>
    intro c hc
    rw [replaceDD] at hc
    rcases List.mem_cons.mp hc with rfl | hc
    · exact List.mem_cons_self _ _
    · exact List.mem_cons_of_mem _ (List.mem_cons_of_mem _ (ih c hc))
  | case2 d rest hside ih =>
    intro c hc
    have heq : replaceDD (d :: rest) = d :: replaceDD rest := by
      rw [replaceDD]
      exact hside
    rw [heq] at hc
    rcases List.mem_cons.mp hc with rfl | hc
    · exact List.mem_cons_self _ _
    · exact List.mem_cons_of_mem _ (ih c hc)
  | case3 =>
    intro c hc
    rw [replaceDD] at hc
    exact absurd hc (List.not_mem_nil c)

theorem replaceDD_length_le (s : Str) : (replaceDD s).length ≤ s.length := by
  induction s using replaceDD.induct with
  | case1 rest ih =>
    rw [replaceDD]
    simp only [List.length_cons]
    omega
  | case2 d rest hside ih =>
    have heq : replaceDD (d :: rest) = d :: replaceDD rest := by
      rw [replaceDD]
      exact hside
    rw [heq]
    simp only [List.length_cons]
    omega
  | case3 => rw [replaceDD]

theorem replaceDD_length_lt (s : Str)
    (h : containsB s ['-', '-'] = true) :
    (replaceDD s).length < s.length := by
  induction s using replaceDD.induct with
  | case1 rest ih =>
    rw [replaceDD]
    have := replaceDD_length_le rest
    simp only [List.length_cons]
    omega
  | case2 d rest hside ih =>
    have heq : replaceDD (d :: rest) = d :: replaceDD rest := by
      rw [replaceDD]
      exact hside
    rw [heq]
    rw [containsB] at h
    have hpre : hasPre ['-', '-'] (d :: rest) = false := by
      cases rest with
      | nil => simp [hasPre]
      | cons e rest' =>
        by_cases hd : d = '-'
        · by_cases he : e = '-'
          · exact (hside rest' hd (by rw [he])).elim
          · simp only [hasPre]
            simp
            intro _
            exact fun hh => he hh.symm
        · simp only [hasPre]
          simp
          intro hdd
          exact absurd hdd.symm hd
    rw [hpre] at h
    simp only [Bool.false_or] at h
    have := ih h
    simp only [List.length_cons]
    omega
  | case3 =>
    rw [containsB] at h
    simp [hasPre] at h

theorem mem_collapseFuel :
    ∀ (n : Nat) (s : Str) (c : Char), c ∈ collapseFuel n s → c ∈ s := by
  intro n
  induction n with
  | zero => intro s c hc; exact hc
  | succ n ih =>
    intro s c hc
    rw [collapseFuel] at hc
    by_cases h : containsB s ['-', '-'] = true
    · rw [if_pos h] at hc
      exact mem_replaceDD s c (ih _ c hc)
    · rw [if_neg h] at hc
      exact hc

theorem collapseFuel_noDD :
    ∀ (n : Nat) (s : Str), s.length ≤ n →
      containsB (collapseFuel n s) ['-', '-'] = false := by
  intro n
  induction n with
  | zero =>
    intro s hlen
    have : s = [] := List.length_eq_zero.mp (by omega)
    subst this
    rfl
  | succ n ih =>
    intro s hlen
    rw [collapseFuel]
    by_cases h : containsB s ['-', '-'] = true
    · rw [if_pos h]
      have := replaceDD_length_lt s h
      exact ih _ (by omega)
    · rw [if_neg h]
      exact Bool.not_eq_true _ |>.mp h

theorem collapseFuel_id (n : Nat) (s : Str)
    (h : containsB s ['-', '-'] = false) : collapseFuel n s = s := by
  cases n with
  | zero => rfl
  | succ n =>
    rw [collapseFuel]
    rw [if_neg (by rw [h]; exact Bool.false_ne_true)]

theorem dropWhile_head_false (p : Char → Bool) :
    ∀ (l : Str) (c : Char), (l.dropWhile p).head? = some c → p c = false := by
  intro l
  induction l with
  | nil => intro c hc; simp [List.dropWhile] at hc
  | cons d rest ih =>
    intro c hc
    by_cases hp : p d = true
    · rw [List.dropWhile_cons_of_pos hp] at hc
      exact ih c hc
    · rw [List.dropWhile_cons_of_neg hp] at hc
      simp only [List.head?_cons, Option.some.injEq] at hc
      subst hc
      exact Bool.not_eq_true _ |>.mp hp

theorem dropWhile_id_of_head (p : Char → Bool) (l : Str)
    (h : ∀ c, l.head? = some c → p c = false) : l.dropWhile p = l := by
  cases l with
  | nil => rfl
  | cons d rest =>
    have := h d rfl
    rw [List.dropWhile_cons_of_neg (by rw [this]; exact Bool.false_ne_true)]

theorem containsB_dropWhile (p : Char → Bool) (l pat : Str)
    (h : containsB (l.dropWhile p) pat = true) : containsB l pat = true := by
  rcases (containsB_iff _ _).mp h with ⟨a, b, hab⟩
  apply (containsB_iff _ _).mpr
  refine ⟨l.takeWhile p ++ a, b, ?_⟩
  conv_lhs => rw [← List.takeWhile_append_dropWhile (p := p) (l := l)]
  rw [hab, List.append_assoc]

theorem containsB_reverse_dd (l : Str)
    (h : containsB l.reverse ['-', '-'] = true) :
    containsB l ['-', '-'] = true := by
  rcases (containsB_iff _ _).mp h with ⟨a, b, hab⟩
  apply (containsB_iff _ _).mpr
  refine ⟨b.reverse, a.reverse, ?_⟩
  have := congrArg List.reverse hab
  simp only [List.reverse_reverse, List.reverse_append] at this
  rw [this]
  simp [List.append_assoc]

theorem trimHyphens_noDD_rev (s : Str)
    (h : containsB (trimHyphens s) ['-', '-'] = true) :
    containsB s ['-', '-'] = true := by
  unfold trimHyphens at h
  have h1 := containsB_reverse_dd _ h
  have h2 := containsB_dropWhile _ _ _ h1
  have h3 := containsB_reverse_dd _ h2
  exact containsB_dropWhile _ _ _ h3

theorem mem_trimHyphens (s : Str) (c : Char) (hc : c ∈ trimHyphens s) :
    c ∈ s := by
  unfold trimHyphens at hc
  rw [List.mem_reverse] at hc
  have h1 := (List.dropWhile_sublist (fun c => decide (c = '-'))).subset hc
  rw [List.mem_reverse] at h1
  exact (List.dropWhile_sublist (fun c => decide (c = '-'))).subset h1

theorem trimHyphens_head (s : Str) : hasPre ['-'] (trimHyphens s) = false := by
  cases ht : trimHyphens s with
  | nil => rfl
  | cons c0 t0 =>
    have hh : (trimHyphens s).head? = some c0 := by rw [ht]; rfl
    unfold trimHyphens at hh
    rw [List.head?_reverse] at hh
    have hwne : ((s.dropWhile (fun c => decide (c = '-'))).reverse.dropWhile
        (fun c => decide (c = '-'))) ≠ [] := by
      intro hnil
      rw [hnil] at hh
      cases hh
    have hu : (s.dropWhile (fun c => decide (c = '-'))).reverse
        = ((s.dropWhile (fun c => decide (c = '-'))).reverse.takeWhile
            (fun c => decide (c = '-')))
          ++ ((s.dropWhile (fun c => decide (c = '-'))).reverse.dropWhile
            (fun c => decide (c = '-'))) :=
      (List.takeWhile_append_dropWhile _ _).symm
    have hlast : (s.dropWhile (fun c => decide (c = '-'))).reverse.getLast?
        = some c0 := by
      rw [hu, List.getLast?_append_of_ne_nil _ hwne]
      exact hh
    rw [List.getLast?_reverse] at hlast
    have hc0 := dropWhile_head_false (fun c => decide (c = '-')) s c0 hlast
    simp only [decide_eq_false_iff_not] at hc0
    simp only [hasPre]
    simp
    exact fun h => hc0 h.symm

theorem trimHyphens_last (s : Str) : lastIs (trimHyphens s) '-' = false := by
  unfold lastIs
  cases hl : (trimHyphens s).getLast? with
  | none => rfl
  | some c =>
    unfold trimHyphens at hl
    rw [List.getLast?_reverse] at hl
    have hc := dropWhile_head_false (fun c => decide (c = '-')) _ c hl
    simpa using hc

theorem trimHyphens_id (s : Str) (h1 : hasPre ['-'] s = false)
    (h2 : lastIs s '-' = false) : trimHyphens s = s := by
  unfold trimHyphens
  have hd1 : s.dropWhile (fun c => decide (c = '-')) = s := by
    apply dropWhile_id_of_head
    intro c hc
    cases s with
    | nil => cases hc
    | cons d rest =>
      simp only [List.head?_cons, Option.some.injEq] at hc
      subst hc
      simp only [hasPre, Bool.and_eq_false_iff] at h1
      rcases h1 with h1 | h1
      · simp only [decide_eq_false_iff_not] at h1 ⊢
        exact fun hh => h1 hh.symm
      · cases rest with
        | nil => cases h1
        | cons e r => cases h1
  rw [hd1]
  have hd2 : s.reverse.dropWhile (fun c => decide (c = '-')) = s.reverse := by
    apply dropWhile_id_of_head
    intro c hc
    rw [List.head?_reverse] at hc
    unfold lastIs at h2
    rw [hc] at h2
    exact h2
  rw [hd2, List.reverse_reverse]

theorem toKebabCase_clean (s : Str) : ∀ c ∈ toKebabCase s, cleanB c = true := by
  intro c hc
  unfold toKebabCase at hc
  by_cases hs : s = []
  · rw [if_pos hs, hs] at hc
    cases hc
  · rw [if_neg hs] at hc
    have h1 := mem_trimHyphens _ _ hc
    unfold collapseHyphens at h1
    have h2 := mem_collapseFuel _ _ _ h1
    exact kebabCore_clean s none c h2

theorem toKebabCase_ascii (s : Str) (hs : ∀ c ∈ s, c.toNat < 128) :
    ∀ c ∈ toKebabCase s, c.toNat < 128 := by
  intro c hc
  unfold toKebabCase at hc
  by_cases hnil : s = []
  · rw [if_pos hnil, hnil] at hc
    cases hc
  · rw [if_neg hnil] at hc
    have h1 := mem_trimHyphens _ _ hc
    unfold collapseHyphens at h1
    have h2 := mem_collapseFuel _ _ _ h1
    exact kebabCore_ascii s none hs c h2

theorem toKebabCase_noDD (s : Str) :
    containsB (toKebabCase s) ['-', '-'] = false := by
  by_cases hs : s = []
  · rw [hs]; decide
  · unfold toKebabCase
    rw [if_neg hs]
    have hne : ¬(containsB
        (trimHyphens (collapseHyphens (kebabCore none s))) ['-', '-'] = true)
        := by
      intro hdd
      have h1 := trimHyphens_noDD_rev _ hdd
      unfold collapseHyphens at h1
      have h2 := collapseFuel_noDD (kebabCore none s).length (kebabCore none s)
        (Nat.le_refl _)
      rw [h1] at h2
      cases h2
    exact Bool.not_eq_true _ |>.mp hne

theorem toKebabCase_noEdge (s : Str) :
    hasPre ['-'] (toKebabCase s) = false
    ∧ lastIs (toKebabCase s) '-' = false := by
  by_cases hs : s = []
  · rw [hs]
    exact ⟨rfl, rfl⟩
  · unfold toKebabCase
    rw [if_neg hs]
    exact ⟨trimHyphens_head _, trimHyphens_last _⟩

/-- U+1D400 MATHEMATICAL BOLD CAPITAL A: uppercase (`Lu`) with no
lowercase mapping, so `unicode.IsUpper` accepts it and `unicode.ToLower`
leaves it unchanged. -/
def mathBoldA : Char := Char.ofNat 119808

/-- C7 counterexample: `toKebabCase` is not idempotent on every string.
On `A` followed by U+1D400 the first pass lowercases the `A` and keeps
U+1D400 with no hyphen (the previous character is uppercase); the second
pass sees a lowercase `a` before the still-uppercase U+1D400 and inserts
a hyphen. -/
theorem toKebabCase_idempotent_counterexample :
    toKebabCase ['A', mathBoldA] = ['a', mathBoldA]
    ∧ toKebabCase (toKebabCase ['A', mathBoldA]) = ['a', '-', mathBoldA]
    ∧ toKebabCase (toKebabCase ['A', mathBoldA])
        ≠ toKebabCase ['A', mathBoldA] := by decide

/-- C7 amended: `toKebabCase` is idempotent on ASCII strings (where the
modelled character classes coincide exactly with Go's `unicode` package
and the previous byte is the previous character). -/
theorem toKebabCase_idempotent_on_ascii :
    ∀ s : Str, (∀ c ∈ s, c.toNat < 128) →
      toKebabCase (toKebabCase s) = toKebabCase s := by
  intro s hs
  by_cases ht : toKebabCase s = []
  · rw [ht]
    rfl
  · have hcore := kebabCore_id (toKebabCase s) none
      (fun c hc => ⟨toKebabCase_clean s c hc, toKebabCase_ascii s hs c hc⟩)
    have hcol : collapseHyphens (toKebabCase s) = toKebabCase s := by
      unfold collapseHyphens
      exact collapseFuel_id _ _ (toKebabCase_noDD s)
    have htr := trimHyphens_id (toKebabCase s) (toKebabCase_noEdge s).1
      (toKebabCase_noEdge s).2
    conv_lhs => rw [toKebabCase]
    rw [if_neg ht, hcore, hcol, htr]

/-- C7 witness: idempotence applied at a concrete ASCII identifier. -/
theorem toKebabCase_idempotent_on_ascii_witness :
    toKebabCase (toKebabCase "User ID_v2".data)
      = toKebabCase "User ID_v2".data :=
  toKebabCase_idempotent_on_ascii "User ID_v2".data (by decide)

/-- Lower-kebab-case shape: no uppercase, underscore or space, no double
hyphen, no leading or trailing hyphen. -/
def isLowerKebabB (s : Str) : Bool :=
  s.all cleanB && !containsB s ['-', '-'] && !hasPre ['-'] s && !lastIs s '-'

theorem toKebabCase_lowerKebab (s : Str) :
    isLowerKebabB (toKebabCase s) = true := by
  unfold isLowerKebabB
  rw [toKebabCase_noDD s, (toKebabCase_noEdge s).1, (toKebabCase_noEdge s).2]
  simp only [Bool.not_false, Bool.and_true]
  rw [List.all_eq_true]
  exact toKebabCase_clean s

theorem DeriveGroupName_lowerKebab (t : Str) :
    isLowerKebabB (DeriveGroupName t) = true := by
  unfold DeriveGroupName
  by_cases h : t = []
  · rw [if_pos h]
    decide
  · rw [if_neg h]
    exact toKebabCase_lowerKebab t

/-- A minimal operation carrying only a tag and an operation id. -/
def mkTaggedOp (tag opId : Str) : Operation :=
  { Tag := tag, Method := "GET".data, Path := "/x".data,
    OperationID := opId, Summary := [], Description := [], Params := [],
    RequestBody := none, Responses := [], Cli := none }

/-- Spec with tags `a` and `Z`: their keys sort to `[Z, a]`, whose derived
group names `[z, a]` are out of order. -/
def exSpecC4 : Spec :=
  { Title := [], Version := [], Description := [],
    Operations := [mkTaggedOp "a".data "opA".data,
                   mkTaggedOp "Z".data "opB".data] }

/-- C4 counterexample: the group names of the built plan are `[z, a]`,
which is not lexicographically sorted (the code sorts the raw tag keys
before kebab-casing, so an uppercase tag sorts before a lowercase one but
its derived name does not). -/
theorem planBuild_group_names_counterexample :
    (planBuild exSpecC4 "app".data "mod".data).Groups.map GroupPlan.Name
      = ["z".data, "a".data]
    ∧ sortedB
        ((planBuild exSpecC4 "app".data "mod".data).Groups.map GroupPlan.Name)
      = false := by decide

/-- C4 amended: every GroupPlan name is lower-kebab-case, and the groups
appear in the lexicographically sorted order of their (normalized) tag
keys — the derived names themselves are sorted only when the tags are
already lower-kebab-case. -/
theorem planBuild_group_names :
    ∀ (s : Spec) (app mod : Str),
      sortedB (planKeys s) = true
      ∧ (planBuild s app mod).Groups.map GroupPlan.Name
          = (planKeys s).map DeriveGroupName
      ∧ (∀ g ∈ (planBuild s app mod).Groups, isLowerKebabB g.Name = true) := by
  intro s app mod
  refine ⟨sortStrs_sorted _, ?_, ?_⟩
  · unfold planBuild
    simp only [List.map_map]
    rfl
  · intro g hg
    unfold planBuild at hg
    simp only [List.mem_map] at hg
    obtain ⟨k, hk, rfl⟩ := hg
    exact DeriveGroupName_lowerKebab k

/-- C4 witness: the sortedness and name-shape facts at the concrete
two-tag spec. -/
theorem planBuild_group_names_witness :
    sortedB (planKeys exSpecC4) = true ∧ isLowerKebabB "z".data = true := by
  have h := planBuild_group_names exSpecC4 "app".data "mod".data
  refine ⟨h.1, ?_⟩
  have hg : (buildGroupPlan "Z".data
      (exSpecC4.Operations.filter (fun op => normTag op = "Z".data)))
      ∈ (planBuild exSpecC4 "app".data "mod".data).Groups := by decide
  have hz := h.2.2 _ hg
  have hname : (buildGroupPlan "Z".data
      (exSpecC4.Operations.filter (fun op => normTag op = "Z".data))).Name
      = "z".data := by decide
  rw [hname] at hz
  exact hz
